import Mathlib

set_option maxRecDepth 20000
set_option autoImplicit false

/-!
Shallow embedding of the brainfart interpreter pipeline, translated from the
Rust sources: `src/token.rs`, `src/error.rs`, `src/lexer.rs`, `src/parser.rs`,
`src/progstate.rs`, `src/main.rs`.  Machine integers (`u32`, `usize`) are
modelled as `Nat`; cell arithmetic that can wrap carries an explicit
`% u32Mod`.  Console streams are made explicit: standard input is a list of
lines (each a list of characters, without the trailing newline; an exhausted
list models end of file, where `read_line` yields an empty line), standard
output is the list of scalar values printed.
-/

/-- The eight command kinds, from `src/token.rs` (`TokenType`). -/
inductive TokenType where
  | PointInc
  | PointDec
  | ValInc
  | ValDec
  | Output
  | Input
  | IfZero
  | IfNonZero
deriving DecidableEq, Repr

/-- A command together with its 1-indexed source position, from `src/token.rs` (`Token`). -/
structure Token where
  ty : TokenType
  line : Nat
  col : Nat
deriving DecidableEq, Repr

/-- The closed error taxonomy, from `src/error.rs` (`BrainfartError`). -/
inductive BrainfartError where
  | UnmatchedOpenBracket
  | UnmatchedCloseBracket (t : Token)
  | PointZeroDec (t : Token)
  | ValZeroDec (t : Token)
  | Io (t : Token)
deriving DecidableEq, Repr

deriving instance DecidableEq for Except

/-- Character-to-command mapping, from `src/lexer.rs` (`lex_char`). -/
def lexChar (c : Char) : Option TokenType :=
  match c with
  | '>' => some .PointInc
  | '<' => some .PointDec
  | '+' => some .ValInc
  | '-' => some .ValDec
  | '.' => some .Output
  | ',' => some .Input
  | '[' => some .IfZero
  | ']' => some .IfNonZero
  | _ => none

/-- The scanning loop of `src/lexer.rs` (`lex_string` together with `add_token`),
with the mutable token vector and the early `return Err` turned into structural
recursion: `line`/`col` are the position trackers, `balance` the bracket-nesting
counter (`brace_balance`).  On end of input a nonzero counter yields
`UnmatchedOpenBracket`; a close bracket scanned at counter zero yields
`UnmatchedCloseBracket` carrying that token, aborting the scan. -/
def lexAux (line col balance : Nat) : List Char → Except BrainfartError (List Token)
  | [] => if balance = 0 then .ok [] else .error .UnmatchedOpenBracket
  | c :: cs =>
    match lexChar c with
    | some tt =>
      match tt with
      | .IfZero =>
        (lexAux line (col + 1) (balance + 1) cs).map (fun ts => Token.mk tt line col :: ts)
      | .IfNonZero =>
        if balance = 0 then .error (.UnmatchedCloseBracket (Token.mk tt line col))
        else (lexAux line (col + 1) (balance - 1) cs).map (fun ts => Token.mk tt line col :: ts)
      | _ =>
        (lexAux line (col + 1) balance cs).map (fun ts => Token.mk tt line col :: ts)
    | none =>
      if c = '\n' ∨ c = '\r' then lexAux (line + 1) 1 balance cs
      else lexAux line (col + 1) balance cs

/-- Entry point of the lexer, from `src/lexer.rs` (`lex_string`): position
tracking starts at line 1, column 1, with the nesting counter at 0. -/
def lexString (s : String) : Except BrainfartError (List Token) :=
  lexAux 1 1 0 s.toList

mutual

/-- Optimized expression node kinds, modelled from the spec (§3 Expr) and from
their use in `src/parser.rs`: the module `expr.rs` the parser imports is not
present under `src/`.  Each non-loop variant carries a run count; a
`LoopBlock` exclusively owns its body (the Rust `LoopBlock` struct is inlined
as the body list). -/
inductive ExprType where
  | MoveRight (n : Nat)
  | MoveLeft (n : Nat)
  | Add (n : Nat)
  | Sub (n : Nat)
  | Set (n : Nat)
  | Output (n : Nat)
  | Input (n : Nat)
  | LoopBlock (body : List Expr)

/-- An optimized expression: a kind plus its provenance tokens, modelled from
the spec (§3) and the field accesses `expr.ty` / `expr.tokens` in `src/parser.rs`. -/
inductive Expr where
  | mk (ty : ExprType) (tokens : List Token)

end

/-- The kind of an expression (`expr.ty` in `src/parser.rs`). -/
def Expr.ty : Expr → ExprType
  | .mk t _ => t

/-- The provenance tokens of an expression (`expr.tokens` in `src/parser.rs`). -/
def Expr.tokens : Expr → List Token
  | .mk _ ts => ts

/-- From `src/parser.rs` (`push_new_expr`): start a new run of count 1 carrying
one token.  The in-progress expression sequence is kept most-recent-first
(the Rust code appends to a `Vec` and inspects/pops its last element; here the
head of the list plays that role, and the final result is reversed). -/
def pushNewExpr (exprs : List Expr) (ty : ExprType) (token : Token) : List Expr :=
  Expr.mk ty [token] :: exprs

/-- From `src/parser.rs` (`parse_point_inc`): extend a trailing `MoveRight` run
or start a new one. -/
def parsePointInc (exprs : List Expr) (token : Token) : List Expr :=
  match exprs with
  | [] => pushNewExpr exprs (.MoveRight 1) token
  | prev :: rest =>
    match prev.ty with
    | .MoveRight x => Expr.mk (.MoveRight (x + 1)) (prev.tokens ++ [token]) :: rest
    | _ => pushNewExpr exprs (.MoveRight 1) token

/-- From `src/parser.rs` (`parse_point_dec`): cancel against a trailing
`MoveRight` (dropping its most recent token, or removing it entirely at count
1), extend a trailing `MoveLeft`, or start a new `MoveLeft` run. -/
def parsePointDec (exprs : List Expr) (token : Token) : List Expr :=
  match exprs with
  | [] => pushNewExpr exprs (.MoveLeft 1) token
  | prev :: rest =>
    match prev.ty with
    | .MoveRight x =>
      if x = 1 then rest
      else Expr.mk (.MoveRight (x - 1)) prev.tokens.dropLast :: rest
    | .MoveLeft x => Expr.mk (.MoveLeft (x + 1)) (prev.tokens ++ [token]) :: rest
    | _ => pushNewExpr exprs (.MoveLeft 1) token

/-- From `src/parser.rs` (`parse_val_inc`): extend a trailing `Add` run,
increment a trailing `Set` constant (appending the token), or start a new `Add`. -/
def parseValInc (exprs : List Expr) (token : Token) : List Expr :=
  match exprs with
  | [] => pushNewExpr exprs (.Add 1) token
  | prev :: rest =>
    match prev.ty with
    | .Add x => Expr.mk (.Add (x + 1)) (prev.tokens ++ [token]) :: rest
    | .Set x => Expr.mk (.Set (x + 1)) (prev.tokens ++ [token]) :: rest
    | _ => pushNewExpr exprs (.Add 1) token

/-- From `src/parser.rs` (`parse_val_dec`): cancel against a trailing `Add`
(dropping its most recent token, or removing it at count 1), extend a trailing
`Sub`, decrement a trailing `Set` constant (appending the token; failing with
`ValZeroDec` when the constant is already 0), or start a new `Sub`. -/
def parseValDec (exprs : List Expr) (token : Token) : Except BrainfartError (List Expr) :=
  match exprs with
  | [] => .ok (pushNewExpr exprs (.Sub 1) token)
  | prev :: rest =>
    match prev.ty with
    | .Add x =>
      if x = 1 then .ok rest
      else .ok (Expr.mk (.Add (x - 1)) prev.tokens.dropLast :: rest)
    | .Sub x => .ok (Expr.mk (.Sub (x + 1)) (prev.tokens ++ [token]) :: rest)
    | .Set x =>
      if x = 0 then .error (.ValZeroDec token)
      else .ok (Expr.mk (.Set (x - 1)) (prev.tokens ++ [token]) :: rest)
    | _ => .ok (pushNewExpr exprs (.Sub 1) token)

/-- From `src/parser.rs` (`parse_output`): extend a trailing `Output` run or
start a new one; never cancels. -/
def parseOutput (exprs : List Expr) (token : Token) : List Expr :=
  match exprs with
  | [] => pushNewExpr exprs (.Output 1) token
  | prev :: rest =>
    match prev.ty with
    | .Output x => Expr.mk (.Output (x + 1)) (prev.tokens ++ [token]) :: rest
    | _ => pushNewExpr exprs (.Output 1) token

/-- From `src/parser.rs` (`parse_input`): extend a trailing `Input` run or
start a new one; never cancels. -/
def parseInput (exprs : List Expr) (token : Token) : List Expr :=
  match exprs with
  | [] => pushNewExpr exprs (.Input 1) token
  | prev :: rest =>
    match prev.ty with
    | .Input x => Expr.mk (.Input (x + 1)) (prev.tokens ++ [token]) :: rest
    | _ => pushNewExpr exprs (.Input 1) token

/-- From `src/parser.rs` (`parse_loop_block`, `IfNonZero` arm): close a loop
body.  If the fully optimized body is exactly one `Sub` of count 1, the loop is
rewritten to `Set 0` carrying that `Sub`'s token (`expr.tokens[0]`; a
parser-produced `Sub 1` always carries exactly one token, so the default of
`headD` is never used); otherwise the body becomes a `LoopBlock` node with no
tokens of its own.  `lb` is the body accumulator (most-recent-first), `parent`
the enclosing accumulator. -/
def closeLoop (parent : List Expr) (lb : List Expr) : List Expr :=
  match lb with
  | [Expr.mk (.Sub 1) tks] =>
    Expr.mk (.Set 0) [tks.headD (Token.mk .ValDec 0 0)] :: parent
  | _ => Expr.mk (.LoopBlock lb.reverse) [] :: parent

/-- From `src/parser.rs` (`parse_loop_block`, falling out of the `while let`):
when the token stream is exhausted with loop bodies still open, each body in
turn becomes a `LoopBlock` pushed onto its parent (the `Set 0` rewrite applies
only on an explicit `IfNonZero`). -/
def unwindStack : List (List Expr) → List Expr → List Expr
  | [], acc => acc.reverse
  | parent :: stack, acc =>
    unwindStack stack (Expr.mk (.LoopBlock acc.reverse) [] :: parent)

/-- The token-dispatch loops of `src/parser.rs` (`parse_tokens` and
`parse_loop_block`), with the recursive-descent call stack made explicit:
`stack` holds the accumulators of the enclosing open loop bodies (so `stack =
[]` means top level), `acc` the current body, both most-recent-first.
`IfZero` opens a new body; `IfNonZero` at top level is silently discarded
(`parse_tokens` line 21), and inside a loop closes it via `closeLoop`. -/
def parseAll : List Token → List (List Expr) → List Expr → Except BrainfartError (List Expr)
  | [], stack, acc => .ok (unwindStack stack acc)
  | t :: rest, stack, acc =>
    match t.ty with
    | .PointInc => parseAll rest stack (parsePointInc acc t)
    | .PointDec => parseAll rest stack (parsePointDec acc t)
    | .ValInc => parseAll rest stack (parseValInc acc t)
    | .ValDec =>
      match parseValDec acc t with
      | .ok acc2 => parseAll rest stack acc2
      | .error e => .error e
    | .Output => parseAll rest stack (parseOutput acc t)
    | .Input => parseAll rest stack (parseInput acc t)
    | .IfZero => parseAll rest (acc :: stack) []
    | .IfNonZero =>
      match stack with
      | [] => parseAll rest [] acc
      | parent :: stack2 => parseAll rest stack2 (closeLoop parent acc)

/-- Entry point of the parser, from `src/parser.rs` (`parse_tokens`). -/
def parseTokens (tokens : List Token) : Except BrainfartError (List Expr) :=
  parseAll tokens [] []

/-- `2 ^ 32`: the modulus of the `u32` cells. -/
def u32Mod : Nat := 2 ^ 32

/-- Validity of a `u32` as a Unicode scalar value (`char::from_u32` in
`src/progstate.rs` `run_output`): below the surrogate range, or between the
surrogate range and `0x110000`. -/
def validScalar (v : Nat) : Bool :=
  v < 0xd800 || (0xe000 ≤ v && v < 0x110000)

/-- ASCII whitespace test used to model `str::trim` in `run_input` (Rust trims
Unicode whitespace; the ASCII subset is all this development exercises). -/
def isWs (c : Char) : Bool :=
  c = ' ' || c = '\t' || c = '\n' || c = '\r'

/-- Model of `str::trim`: drop whitespace from both ends. -/
def trimChars (l : List Char) : List Char :=
  ((l.dropWhile isWs).reverse.dropWhile isWs).reverse

/-- A run-time failure of the token machine: either one of the program's own
errors, or a Rust panic (`unwrap` on an empty loop stack in
`run_if_non_zero`, or an out-of-bounds index). -/
inductive RunErr where
  | bf (e : BrainfartError)
  | panic
deriving DecidableEq, Repr

/-- The interpreter state, from `src/progstate.rs` (`ProgState`), extended
with the explicit console streams `stdin` and `out` described at the top of
this file. -/
structure ProgState where
  commands : List Token
  data : List Nat
  command_index : Nat
  data_index : Nat
  loop_stack : List Nat
  stdin : List (List Char)
  out : List Nat
deriving DecidableEq, Repr

/-- From `src/progstate.rs` (`ProgState::from_tokens`): `vec![0]` has capacity
exactly 1, so after `resize(capacity, 0)` the data vector is `[0]`.  The
`stdin` argument seeds the console model. -/
def ProgState.fromTokens (tokens : List Token) (stdin : List (List Char)) : ProgState :=
  { commands := tokens
    data := [0]
    command_index := 0
    data_index := 0
    loop_stack := []
    stdin := stdin
    out := [] }

/-- From `src/progstate.rs` (`ProgState::finished`). -/
def ProgState.finished (s : ProgState) : Bool :=
  s.commands.length ≤ s.command_index

/-- From `src/progstate.rs` (`run_point_inc`): advance the pointer; if it
reaches the end of the data vector, grow it zero-filled so the new position is
addressable.  In the Rust code length and capacity always coincide (both the
initial state and every growth end with `resize(capacity, 0)`), and `reserve`
may over-allocate; the growth is modelled as exactly reaching the pointer,
which only makes the trailing zero region shorter. -/
def ProgState.run_point_inc (s : ProgState) : Except RunErr ProgState :=
  let di := s.data_index + 1
  if di ≥ s.data.length then
    .ok { s with data_index := di, command_index := s.command_index + 1,
                 data := s.data ++ List.replicate (di + 1 - s.data.length) 0 }
  else
    .ok { s with data_index := di, command_index := s.command_index + 1 }

/-- From `src/progstate.rs` (`run_point_dec`): moving left of cell 0 fails with
`PointZeroDec` carrying the current command's token. -/
def ProgState.run_point_dec (s : ProgState) (t : Token) : Except RunErr ProgState :=
  if s.data_index = 0 then .error (.bf (.PointZeroDec t))
  else .ok { s with data_index := s.data_index - 1, command_index := s.command_index + 1 }

/-- From `src/progstate.rs` (`run_val_inc`): increment the current cell
(wrapping `u32` arithmetic); an out-of-range pointer would panic. -/
def ProgState.run_val_inc (s : ProgState) : Except RunErr ProgState :=
  if h : s.data_index < s.data.length then
    .ok { s with data := s.data.set s.data_index ((s.data.get ⟨s.data_index, h⟩ + 1) % u32Mod),
                 command_index := s.command_index + 1 }
  else .error .panic

/-- From `src/progstate.rs` (`run_val_dec`): decrementing a zero cell fails
with `ValZeroDec` carrying the current command's token. -/
def ProgState.run_val_dec (s : ProgState) (t : Token) : Except RunErr ProgState :=
  if h : s.data_index < s.data.length then
    let v := s.data.get ⟨s.data_index, h⟩
    if v = 0 then .error (.bf (.ValZeroDec t))
    else .ok { s with data := s.data.set s.data_index (v - 1),
                      command_index := s.command_index + 1 }
  else .error .panic

/-- From `src/progstate.rs` (`run_output`): print the current cell as a
character if it is a valid scalar value, else print a single space (scalar 32). -/
def ProgState.run_output (s : ProgState) : Except RunErr ProgState :=
  if h : s.data_index < s.data.length then
    let v := s.data.get ⟨s.data_index, h⟩
    .ok { s with out := s.out ++ [if validScalar v then v else 32],
                 command_index := s.command_index + 1 }
  else .error .panic

/-- From `src/progstate.rs` (`run_input`): read one line, trim it, and parse it
as a single `char` (`str::parse::<char>` succeeds exactly when the trimmed
line is one character); on parse failure fail with `Io` carrying the current
command's token.  A genuine read failure would panic (`expect`), which the
list-of-lines console model cannot produce: at end of file `read_line`
returns an empty line. -/
def ProgState.run_input (s : ProgState) (t : Token) : Except RunErr ProgState :=
  let line := s.stdin.headD []
  let s2 := { s with stdin := s.stdin.tail }
  match trimChars line with
  | [c] =>
    if s2.data_index < s2.data.length then
      .ok { s2 with data := s2.data.set s2.data_index c.toNat,
                    command_index := s2.command_index + 1 }
    else .error .panic
  | _ => .error (.bf (.Io t))

/-- Offset of the first `IfNonZero` token in a list, if any: the forward scan
of `run_if_zero` (which looks for the first close bracket, not the matching
one). -/
def firstClose : List Token → Option Nat
  | [] => none
  | t :: ts => if t.ty = .IfNonZero then some 0 else (firstClose ts).map (· + 1)

/-- From `src/progstate.rs` (`run_if_zero`): if the current cell is zero, scan
forward to the first `IfNonZero` token and jump just past it (running past the
end of the program fails with `UnmatchedOpenBracket`); otherwise push the
current command index on the loop stack and step forward. -/
def ProgState.run_if_zero (s : ProgState) : Except RunErr ProgState :=
  if h : s.data_index < s.data.length then
    let v := s.data.get ⟨s.data_index, h⟩
    if v = 0 then
      match firstClose (s.commands.drop s.command_index) with
      | none => .error (.bf .UnmatchedOpenBracket)
      | some k => .ok { s with command_index := s.command_index + k + 1 }
    else
      .ok { s with loop_stack := s.command_index :: s.loop_stack,
                   command_index := s.command_index + 1 }
  else .error .panic

/-- From `src/progstate.rs` (`run_if_non_zero`): if the current cell is
nonzero, jump back to the popped loop-stack index (`unwrap` on an empty stack
panics); otherwise discard the top of the loop stack and step forward. -/
def ProgState.run_if_non_zero (s : ProgState) : Except RunErr ProgState :=
  if h : s.data_index < s.data.length then
    let v := s.data.get ⟨s.data_index, h⟩
    if v = 0 then
      .ok { s with loop_stack := s.loop_stack.tail, command_index := s.command_index + 1 }
    else
      match s.loop_stack with
      | [] => .error .panic
      | j :: rest => .ok { s with command_index := j, loop_stack := rest }
  else .error .panic

/-- From `src/progstate.rs` (`ProgState::run`): dispatch one command.  The Rust
code indexes `commands[command_index]` (and the per-command handlers re-read
the same token for error reporting, passed here as an argument); reading past
the end would panic, which `run` is never asked to do by `main`. -/
def ProgState.run (s : ProgState) : Except RunErr ProgState :=
  match s.commands[s.command_index]? with
  | none => .error .panic
  | some t =>
    match t.ty with
    | .PointInc => s.run_point_inc
    | .PointDec => s.run_point_dec t
    | .ValInc => s.run_val_inc
    | .ValDec => s.run_val_dec t
    | .Output => s.run_output
    | .Input => s.run_input t
    | .IfZero => s.run_if_zero
    | .IfNonZero => s.run_if_non_zero

/-- The driver loop of `src/main.rs` (`run_file`): step while not finished.
`fuel` bounds the number of steps so the definition is total; `none` means the
fuel ran out before the program finished. -/
def ProgState.runAll : Nat → ProgState → Option (Except RunErr ProgState)
  | 0, s => if s.finished then some (.ok s) else none
  | fuel + 1, s =>
    if s.finished then some (.ok s)
    else
      match s.run with
      | .error e => some (.error e)
      | .ok s2 => ProgState.runAll fuel s2

/-- The file loop of `src/main.rs` (`main`, lines 14-26), abstracted over the
per-file outcomes: given the result each file's run would produce, return the
number of files actually processed, the errors printed to standard error, and
the process exit code.  On the first `Err` the error is printed and the
process exits with code 1 (`exit(1)`), so no later file is processed. -/
def mainLoop : List (Except BrainfartError Unit) → Nat × List BrainfartError × Nat
  | [] => (0, [], 0)
  | .ok _ :: rest =>
    let r := mainLoop rest
    (r.1 + 1, r.2.1, r.2.2)
  | .error e :: _ => (1, [e], 1)

/-- The lex-then-parse pipeline on a source string (spec §2 Flow). -/
def parseSource (s : String) : Except BrainfartError (List Expr) :=
  match lexString s with
  | .ok toks => parseTokens toks
  | .error e => .error e

/-- A placeholder token used only where an expression's token list is empty,
which never happens for parser-produced non-loop expressions. -/
def dummyToken : Token := Token.mk .ValDec 0 0

/-- Modelled from the spec: the state of the expression-tree interpreter of
spec §4.3, which is not present under `src/` (`progstate.rs` executes raw
tokens; no code consumes the parser's `Expr` tree).  Tape of `u32` cells,
pointer, and the same console model as `ProgState`. -/
structure MState where
  tape : List Nat
  ptr : Nat
  stdin : List (List Char)
  out : List Nat
deriving DecidableEq, Repr

/-- The current cell of the spec-modelled interpreter state. -/
def MState.cell (s : MState) : Nat := s.tape.getD s.ptr 0

/-- Overwrite the current cell of the spec-modelled interpreter state. -/
def MState.setCell (s : MState) (v : Nat) : MState :=
  { s with tape := s.tape.set s.ptr v }

/-- Modelled from the spec (§4.3 MoveRight): advance the pointer by `n`,
growing the tape zero-filled so the new position is addressable. -/
def specMoveRight (s : MState) (n : Nat) : MState :=
  let p := s.ptr + n
  if p ≥ s.tape.length then
    { s with ptr := p, tape := s.tape ++ List.replicate (p + 1 - s.tape.length) 0 }
  else { s with ptr := p }

/-- Modelled from the spec (§4.3 Input): `n` times, read one line and overwrite
the current cell with its first character's scalar value; a read failure (here:
exhausted input, or a line with no first character) stops immediately with an
`Io` error bound to the node's first provenance token. -/
def specInput : Nat → MState → Token → Except BrainfartError MState
  | 0, s, _ => .ok s
  | n + 1, s, t =>
    match s.stdin with
    | [] => .error (.Io t)
    | line :: rest =>
      match line with
      | [] => .error (.Io t)
      | c :: _ => specInput n { (s.setCell c.toNat) with stdin := rest } t

/-- Modelled from the spec: the expression-tree interpreter of spec §4.3,
executing an expression sequence depth-first and left-to-right.  `fuel` bounds
loop iterations so the definition is total (`none` = fuel exhausted).  A Loop
node checks the current cell before every iteration including the first;
Add/Sub use plain unsigned (`u32`) arithmetic with Sub failing on underflow;
Set never fails; MoveLeft fails on pointer underflow; Output writes the cell's
character `n` times if it is a valid scalar and a single space otherwise. -/
def runExprs : Nat → MState → List Expr → Option (Except BrainfartError MState)
  | 0, _, _ => none
  | _ + 1, s, [] => some (.ok s)
  | fuel + 1, s, e :: rest =>
    match e.ty with
    | .MoveRight n => runExprs fuel (specMoveRight s n) rest
    | .MoveLeft n =>
      if s.ptr < n then some (.error (.PointZeroDec (e.tokens.headD dummyToken)))
      else runExprs fuel { s with ptr := s.ptr - n } rest
    | .Add n => runExprs fuel (s.setCell ((s.cell + n) % u32Mod)) rest
    | .Sub n =>
      if s.cell < n then some (.error (.ValZeroDec (e.tokens.headD dummyToken)))
      else runExprs fuel (s.setCell (s.cell - n)) rest
    | .Set n => runExprs fuel (s.setCell n) rest
    | .Output n =>
      if validScalar s.cell then
        runExprs fuel { s with out := s.out ++ List.replicate n s.cell } rest
      else runExprs fuel { s with out := s.out ++ [32] } rest
    | .Input n =>
      match specInput n s (e.tokens.headD dummyToken) with
      | .ok s2 => runExprs fuel s2 rest
      | .error er => some (.error er)
    | .LoopBlock body =>
      if s.cell = 0 then runExprs fuel s rest
      else
        match runExprs fuel s body with
        | none => none
        | some (.error er) => some (.error er)
        | some (.ok s2) => runExprs fuel s2 (e :: rest)

/-- The initial state of the spec-modelled interpreter (spec §4.3: tape of
length 1, all zero, pointer 0), seeded with the given input lines. -/
def MState.init (stdin : List (List Char)) : MState :=
  { tape := [0], ptr := 0, stdin := stdin, out := [] }


/-- The token sequence of the source "[[]+>]" (used to exhibit the nested-loop
skip defect). -/
def toksNestSkipMove : List Token :=
  [Token.mk .IfZero 1 1, Token.mk .IfZero 1 2, Token.mk .IfNonZero 1 3,
   Token.mk .ValInc 1 4, Token.mk .PointInc 1 5, Token.mk .IfNonZero 1 6]

/-- The optimized expression tree of "[[]+>]": one outer loop whose body is an
empty inner loop, an `Add 1`, and a `MoveRight 1`. -/
def treeNestSkipMove : List Expr :=
  [Expr.mk (.LoopBlock [Expr.mk (.LoopBlock []) [],
    Expr.mk (.Add 1) [Token.mk .ValInc 1 4],
    Expr.mk (.MoveRight 1) [Token.mk .PointInc 1 5]]) []]

/-- The token sequence of the source "[[]+]". -/
def toksNestSkip : List Token :=
  [Token.mk .IfZero 1 1, Token.mk .IfZero 1 2, Token.mk .IfNonZero 1 3,
   Token.mk .ValInc 1 4, Token.mk .IfNonZero 1 5]

/-- C1: the spec claims that for bracket-balanced command-only sources,
unoptimized token-by-token execution and optimized expression-tree execution
produce the same output and the same value in every touched tape cell.  The
code violates this.  For the source "[[]+>]" started on a zero cell,
`run_if_zero` jumps to the *first* `IfNonZero` token instead of the matching
one (contradicting the `IfZero` documentation in `src/token.rs`), so the `+`
and `>` that sit inside the skipped outer loop still execute: direct execution
succeeds leaving cell 0 equal to 1, while the optimized tree (a single loop
whose body is never entered) succeeds leaving cell 0 equal to 0. -/
theorem C1_failing_eval :
    lexString "[[]+>]" = .ok toksNestSkipMove
    ∧ ProgState.runAll 10 (ProgState.fromTokens toksNestSkipMove [])
      = some (.ok (ProgState.mk toksNestSkipMove [1, 0] 6 1 [] [] []))
    ∧ parseTokens toksNestSkipMove = .ok treeNestSkipMove
    ∧ runExprs 10 (MState.init []) treeNestSkipMove = some (.ok (MState.init []))
    ∧ (ProgState.mk toksNestSkipMove [1, 0] 6 1 [] [] []).data.getD 0 0
      ≠ (MState.init []).tape.getD 0 0 :=
  ⟨rfl, by decide, rfl, rfl, by decide⟩

/-- C2: the spec claims a loop reached with a zero current cell executes its
body zero times, no command inside it (at any nesting depth) having any
effect.  The code violates this for nested loops: on the source "[[]+]" with
cell 0, `run_if_zero` jumps just past the *first* `IfNonZero` token (index 2)
rather than the matching one, so the `+` at index 3 — inside the skipped
outer loop — executes and sets cell 0 to 1; the final `]` then pops an empty
loop stack and the `unwrap` panics. -/
theorem C2_skipped_loop_body_executes :
    lexString "[[]+]" = .ok toksNestSkip
    ∧ (ProgState.fromTokens toksNestSkip []).run
      = .ok (ProgState.mk toksNestSkip [0] 3 0 [] [] [])
    ∧ (ProgState.mk toksNestSkip [0] 3 0 [] [] []).run
      = .ok (ProgState.mk toksNestSkip [1] 4 0 [] [] [])
    ∧ ProgState.runAll 10 (ProgState.fromTokens toksNestSkip []) = some (.error .panic) :=
  ⟨rfl, by decide, by decide, by decide⟩

/-- C3 counterexample: the claim says all four of "><", "<>", "+-", "-+"
parse to an empty expression sequence, but "<>" and "-+" do not: the parser
cancels only a negative unit against a trailing *positive* run
(`parse_point_dec` / `parse_val_dec` check for a trailing `MoveRight` /
`Add`), never a positive unit against a trailing negative run. -/
theorem C3_counterexample :
    parseSource "<>" ≠ .ok [] ∧ parseSource "-+" ≠ .ok [] := by
  have h1 : parseSource "<>" = .ok [Expr.mk (.MoveLeft 1) [Token.mk .PointDec 1 1],
      Expr.mk (.MoveRight 1) [Token.mk .PointInc 1 2]] := rfl
  have h2 : parseSource "-+" = .ok [Expr.mk (.Sub 1) [Token.mk .ValDec 1 1],
      Expr.mk (.Add 1) [Token.mk .ValInc 1 2]] := rfl
  constructor
  · intro h
    rw [h1] at h
    injection h with h'
    exact List.cons_ne_nil _ _ h'
  · intro h
    rw [h2] at h
    injection h with h'
    exact List.cons_ne_nil _ _ h'

/-- C3 amended: "><" and "+-" parse to an empty expression sequence; "<>"
parses to `[MoveLeft 1, MoveRight 1]` and "-+" to `[Sub 1, Add 1]` —
adjacent opposite units cancel only when the negative unit follows the
positive run, not in the other order. -/
theorem C3_amended :
    parseSource "><" = .ok []
    ∧ parseSource "+-" = .ok []
    ∧ parseSource "<>" = .ok [Expr.mk (.MoveLeft 1) [Token.mk .PointDec 1 1],
        Expr.mk (.MoveRight 1) [Token.mk .PointInc 1 2]]
    ∧ parseSource "-+" = .ok [Expr.mk (.Sub 1) [Token.mk .ValDec 1 1],
        Expr.mk (.Add 1) [Token.mk .ValInc 1 2]] :=
  ⟨rfl, rfl, rfl, rfl⟩

/-- C4 counterexample: the claim says a failure while processing one file is
fatal only for that file and every subsequent file is still processed, but
`main` (src/main.rs lines 20-23) calls `exit(1)` on the first failure: with
two files of which the first fails, only one file is processed. -/
theorem C4_counterexample :
    mainLoop [.error .UnmatchedOpenBracket, .ok ()]
      = (1, [BrainfartError.UnmatchedOpenBracket], 1)
    ∧ (mainLoop [.error .UnmatchedOpenBracket, .ok ()]).1 ≠ 2 :=
  ⟨rfl, by decide⟩

/-- C4 amended: a failure while processing a file prints that error to
standard error and terminates the whole process with exit code 1, so no
subsequent file argument is processed; files before the first failing one are
each processed normally. -/
theorem C4_amended (e : BrainfartError) (rest : List (Except BrainfartError Unit)) :
    mainLoop (.error e :: rest) = (1, [e], 1)
    ∧ mainLoop (.ok () :: rest)
      = ((mainLoop rest).1 + 1, (mainLoop rest).2.1, (mainLoop rest).2.2) :=
  ⟨rfl, rfl⟩

/-- C5 counterexample: the claim says an Input command overwrites the current
cell with the first character of the line read, and only a failure of the read
itself produces an `Io` error.  But `run_input` parses the trimmed line with
`str::parse::<char>`, which fails unless the line is exactly one character:
for the program "," with the input line "AB" the read succeeds, yet the code
fails with `Io` instead of storing 'A' (scalar 65). -/
theorem C5_counterexample :
    ProgState.runAll 5 (ProgState.fromTokens [Token.mk .Input 1 1] [['A', 'B']])
      = some (.error (.bf (.Io (Token.mk .Input 1 1))))
    ∧ ProgState.runAll 5 (ProgState.fromTokens [Token.mk .Input 1 1] [['A', 'B']])
      ≠ some (.ok (ProgState.mk [Token.mk .Input 1 1] [65] 1 0 [] [] [])) :=
  ⟨by decide, by decide⟩

/-- C5 amended: executing an Input command reads one line from standard input;
if the line trimmed of whitespace is exactly one character, it overwrites the
current cell with that character's scalar value, and otherwise (empty line,
end of file, or more than one character after trimming) it fails with an `Io`
error bound to the command's token.  (A failure of the read itself panics via
`expect` rather than producing an `Io` error.) -/
theorem C5_amended (s : ProgState) (t : Token) :
    (∀ c : Char, trimChars (s.stdin.headD []) = [c] → s.data_index < s.data.length →
      s.run_input t = .ok (ProgState.mk s.commands (s.data.set s.data_index c.toNat)
        (s.command_index + 1) s.data_index s.loop_stack s.stdin.tail s.out))
    ∧ ((∀ c : Char, trimChars (s.stdin.headD []) ≠ [c]) →
      s.run_input t = .error (.bf (.Io t))) := by
  constructor
  · intro c hc hlen
    unfold ProgState.run_input
    dsimp only
    rw [hc]
    simp [hlen]
  · intro hno
    unfold ProgState.run_input
    dsimp only
    cases htr : trimChars (s.stdin.headD []) with
    | nil => rfl
    | cons c rest =>
      cases rest with
      | nil => exact absurd htr (hno c)
      | cons d rest2 => rfl

/-- C5 witness: instantiating the amended theorem at the program "," with the
single input line "A" (the success branch) and checking the result. -/
theorem C5_witness :
    ProgState.run_input (ProgState.mk [Token.mk .Input 1 1] [0] 0 0 [] [['A']] [])
        (Token.mk .Input 1 1)
      = .ok (ProgState.mk [Token.mk .Input 1 1] [65] 1 0 [] [] []) := by
  have h := (C5_amended (ProgState.mk [Token.mk .Input 1 1] [0] 0 0 [] [['A']] [])
    (Token.mk .Input 1 1)).1 'A' (by decide) (by decide)
  simpa using h

/-- C7: the zero-loop rewrite.  "[-]" parses to exactly `[Set 0]` carrying the
inner Sub's token (line 1, col 2); "[-]+" parses to `[Set 1]`; "[-]--" fails
at parse time with `ValZeroDec` at the first `-` after the loop (line 1,
col 4), since the folded constant is already 0. -/
theorem C7_zero_loop_rewrite :
    parseSource "[-]" = .ok [Expr.mk (.Set 0) [Token.mk .ValDec 1 2]]
    ∧ parseSource "[-]+" = .ok [Expr.mk (.Set 1) [Token.mk .ValDec 1 2, Token.mk .ValInc 1 4]]
    ∧ parseSource "[-]--" = .error (.ValZeroDec (Token.mk .ValDec 1 4)) :=
  ⟨rfl, rfl, rfl⟩


/-- Reading at or beyond the original length of a zero-extended list gives 0. -/
theorem getD_append_replicate_zero (l : List Nat) (k i : Nat) (h : l.length ≤ i) :
    (l ++ List.replicate k 0).getD i 0 = 0 := by
  rw [List.getD_eq_getElem?_getD, List.getElem?_append_right h, List.getElem?_replicate]
  split <;> rfl

/-- Reading at or beyond the length of a list gives the default. -/
theorem getD_of_length_le (l : List Nat) (i : Nat) (h : l.length ≤ i) : l.getD i 0 = 0 :=
  List.getD_eq_default _ _ h

/-- The per-step part of the claim-C8 invariant, from state `s` to state `s2`:
the pointer stays strictly inside the tape, the tape never shrinks, and every
newly added cell reads 0 (the tape only ever grows rightward). -/
def TapeStep (s s2 : ProgState) : Prop :=
  s2.data_index < s2.data.length
  ∧ s.data.length ≤ s2.data.length
  ∧ ∀ i : Nat, s.data.length ≤ i → s2.data.getD i 0 = 0

/-- `run_point_inc` preserves the tape invariant. -/
theorem run_point_inc_tape (s s2 : ProgState) (hinv : s.data_index < s.data.length)
    (h : s.run_point_inc = .ok s2) : TapeStep s s2 := by
  unfold ProgState.run_point_inc at h
  dsimp only at h
  by_cases hg : s.data_index + 1 ≥ s.data.length
  · rw [if_pos hg] at h
    injection h with h
    subst h
    refine ⟨?_, ?_, ?_⟩
    · show s.data_index + 1 < (s.data ++ List.replicate (s.data_index + 1 + 1 - s.data.length) 0).length
      simp only [List.length_append, List.length_replicate]
      omega
    · show s.data.length ≤ (s.data ++ List.replicate (s.data_index + 1 + 1 - s.data.length) 0).length
      simp only [List.length_append, List.length_replicate]
      omega
    · intro i hi
      exact getD_append_replicate_zero _ _ _ hi
  · rw [if_neg hg] at h
    injection h with h
    subst h
    exact ⟨show s.data_index + 1 < s.data.length by omega, le_rfl,
      fun i hi => getD_of_length_le _ _ hi⟩

/-- `run_point_dec` preserves the tape invariant. -/
theorem run_point_dec_tape (s s2 : ProgState) (t : Token)
    (hinv : s.data_index < s.data.length)
    (h : s.run_point_dec t = .ok s2) : TapeStep s s2 := by
  unfold ProgState.run_point_dec at h
  by_cases hz : s.data_index = 0
  · rw [if_pos hz] at h
    cases h
  · rw [if_neg hz] at h
    injection h with h
    subst h
    exact ⟨show s.data_index - 1 < s.data.length by omega, le_rfl,
      fun i hi => getD_of_length_le _ _ hi⟩

/-- `run_val_inc` preserves the tape invariant. -/
theorem run_val_inc_tape (s s2 : ProgState) (hinv : s.data_index < s.data.length)
    (h : s.run_val_inc = .ok s2) : TapeStep s s2 := by
  unfold ProgState.run_val_inc at h
  rw [dif_pos hinv] at h
  injection h with h
  subst h
  exact ⟨by simpa using hinv, by simp, fun i hi => getD_of_length_le _ _ (by simpa using hi)⟩

/-- `run_val_dec` preserves the tape invariant. -/
theorem run_val_dec_tape (s s2 : ProgState) (t : Token)
    (hinv : s.data_index < s.data.length)
    (h : s.run_val_dec t = .ok s2) : TapeStep s s2 := by
  unfold ProgState.run_val_dec at h
  rw [dif_pos hinv] at h
  dsimp only at h
  by_cases hv : s.data.get ⟨s.data_index, hinv⟩ = 0
  · rw [if_pos hv] at h
    cases h
  · rw [if_neg hv] at h
    injection h with h
    subst h
    exact ⟨by simpa using hinv, by simp, fun i hi => getD_of_length_le _ _ (by simpa using hi)⟩

/-- `run_output` preserves the tape invariant. -/
theorem run_output_tape (s s2 : ProgState) (hinv : s.data_index < s.data.length)
    (h : s.run_output = .ok s2) : TapeStep s s2 := by
  unfold ProgState.run_output at h
  rw [dif_pos hinv] at h
  dsimp only at h
  injection h with h
  subst h
  exact ⟨hinv, le_rfl, fun i hi => getD_of_length_le _ _ hi⟩

/-- `run_input` preserves the tape invariant. -/
theorem run_input_tape (s s2 : ProgState) (t : Token)
    (hinv : s.data_index < s.data.length)
    (h : s.run_input t = .ok s2) : TapeStep s s2 := by
  unfold ProgState.run_input at h
  dsimp only at h
  cases htr : trimChars (s.stdin.headD []) with
  | nil =>
    rw [htr] at h
    cases h
  | cons c rest =>
    cases rest with
    | nil =>
      rw [htr] at h
      dsimp only at h
      rw [if_pos hinv] at h
      injection h with h
      subst h
      exact ⟨by simpa using hinv, by simp, fun i hi => getD_of_length_le _ _ (by simpa using hi)⟩
    | cons d rest2 =>
      rw [htr] at h
      cases h

/-- `run_if_zero` preserves the tape invariant. -/
theorem run_if_zero_tape (s s2 : ProgState) (hinv : s.data_index < s.data.length)
    (h : s.run_if_zero = .ok s2) : TapeStep s s2 := by
  unfold ProgState.run_if_zero at h
  rw [dif_pos hinv] at h
  dsimp only at h
  by_cases hv : s.data.get ⟨s.data_index, hinv⟩ = 0
  · rw [if_pos hv] at h
    cases hfc : firstClose (s.commands.drop s.command_index) with
    | none =>
      rw [hfc] at h
      cases h
    | some k =>
      rw [hfc] at h
      injection h with h
      subst h
      exact ⟨hinv, le_rfl, fun i hi => getD_of_length_le _ _ hi⟩
  · rw [if_neg hv] at h
    injection h with h
    subst h
    exact ⟨hinv, le_rfl, fun i hi => getD_of_length_le _ _ hi⟩

/-- `run_if_non_zero` preserves the tape invariant. -/
theorem run_if_non_zero_tape (s s2 : ProgState) (hinv : s.data_index < s.data.length)
    (h : s.run_if_non_zero = .ok s2) : TapeStep s s2 := by
  unfold ProgState.run_if_non_zero at h
  rw [dif_pos hinv] at h
  dsimp only at h
  by_cases hv : s.data.get ⟨s.data_index, hinv⟩ = 0
  · rw [if_pos hv] at h
    injection h with h
    subst h
    exact ⟨hinv, le_rfl, fun i hi => getD_of_length_le _ _ hi⟩
  · rw [if_neg hv] at h
    cases hls : s.loop_stack with
    | nil =>
      rw [hls] at h
      cases h
    | cons j rest =>
      rw [hls] at h
      injection h with h
      subst h
      exact ⟨hinv, le_rfl, fun i hi => getD_of_length_le _ _ hi⟩

/-- C8: the interpreter's tape starts as `[0]` (length 1, containing 0) with
the pointer at 0 (`from_tokens`), and one successful `run` step from any state
whose pointer is inside the tape keeps the pointer inside the tape, never
shrinks the tape, and zero-fills every newly added cell — so the tape only
ever grows rightward and `0 ≤ pointer < tape length` holds after every
successfully completed operation. -/
theorem C8_tape_invariant (ts : List Token) (stdin : List (List Char)) (s s2 : ProgState)
    (hinv : s.data_index < s.data.length) (h : s.run = .ok s2) :
    (ProgState.fromTokens ts stdin).data = [0]
    ∧ (ProgState.fromTokens ts stdin).data_index = 0
    ∧ TapeStep s s2 := by
  refine ⟨rfl, rfl, ?_⟩
  unfold ProgState.run at h
  rcases hcmd : s.commands[s.command_index]? with _ | t
  · rw [hcmd] at h
    cases h
  · rw [hcmd] at h
    rcases t with ⟨ty, line, col⟩
    cases ty
    case PointInc => exact run_point_inc_tape s s2 hinv h
    case PointDec => exact run_point_dec_tape s s2 _ hinv h
    case ValInc => exact run_val_inc_tape s s2 hinv h
    case ValDec => exact run_val_dec_tape s s2 _ hinv h
    case Output => exact run_output_tape s s2 hinv h
    case Input => exact run_input_tape s s2 _ hinv h
    case IfZero => exact run_if_zero_tape s s2 hinv h
    case IfNonZero => exact run_if_non_zero_tape s s2 hinv h

/-- C8 witness: a concrete step (the program ">" from its initial state) —
the pointer moves to 1, the tape grows to `[0, 0]`, and the invariant holds. -/
theorem C8_witness :
    (ProgState.fromTokens [] []).data = [0]
    ∧ (ProgState.fromTokens [] []).data_index = 0
    ∧ TapeStep (ProgState.mk [Token.mk .PointInc 1 1] [0] 0 0 [] [] [])
        (ProgState.mk [Token.mk .PointInc 1 1] [0, 0] 1 1 [] [] []) :=
  C8_tape_invariant [] [] _ _ (by decide) (by decide)

/-- Step equation: `parseAll` on an empty token list unwinds the open frames. -/
theorem parseAll_nil (stack : List (List Expr)) (acc : List Expr) :
    parseAll [] stack acc = .ok (unwindStack stack acc) := rfl

/-- Step equation for a `PointInc` token. -/
theorem parseAll_pointInc (l c : Nat) (rest : List Token) (stack : List (List Expr))
    (acc : List Expr) :
    parseAll (Token.mk .PointInc l c :: rest) stack acc
      = parseAll rest stack (parsePointInc acc (Token.mk .PointInc l c)) := rfl

/-- Step equation for a `PointDec` token. -/
theorem parseAll_pointDec (l c : Nat) (rest : List Token) (stack : List (List Expr))
    (acc : List Expr) :
    parseAll (Token.mk .PointDec l c :: rest) stack acc
      = parseAll rest stack (parsePointDec acc (Token.mk .PointDec l c)) := rfl

/-- Step equation for a `ValInc` token. -/
theorem parseAll_valInc (l c : Nat) (rest : List Token) (stack : List (List Expr))
    (acc : List Expr) :
    parseAll (Token.mk .ValInc l c :: rest) stack acc
      = parseAll rest stack (parseValInc acc (Token.mk .ValInc l c)) := rfl

/-- Step equation for a `ValDec` token: recurse on success, propagate the error. -/
theorem parseAll_valDec (l c : Nat) (rest : List Token) (stack : List (List Expr))
    (acc : List Expr) :
    parseAll (Token.mk .ValDec l c :: rest) stack acc
      = match parseValDec acc (Token.mk .ValDec l c) with
        | .ok acc2 => parseAll rest stack acc2
        | .error e => .error e := rfl

/-- Step equation for an `Output` token. -/
theorem parseAll_output (l c : Nat) (rest : List Token) (stack : List (List Expr))
    (acc : List Expr) :
    parseAll (Token.mk .Output l c :: rest) stack acc
      = parseAll rest stack (parseOutput acc (Token.mk .Output l c)) := rfl

/-- Step equation for an `Input` token. -/
theorem parseAll_input (l c : Nat) (rest : List Token) (stack : List (List Expr))
    (acc : List Expr) :
    parseAll (Token.mk .Input l c :: rest) stack acc
      = parseAll rest stack (parseInput acc (Token.mk .Input l c)) := rfl

/-- Step equation for an `IfZero` token: open a new loop-body frame. -/
theorem parseAll_ifZero (l c : Nat) (rest : List Token) (stack : List (List Expr))
    (acc : List Expr) :
    parseAll (Token.mk .IfZero l c :: rest) stack acc
      = parseAll rest (acc :: stack) [] := rfl

/-- Step equation for an `IfNonZero` token at top level: discard it. -/
theorem parseAll_ifNonZero_top (l c : Nat) (rest : List Token) (acc : List Expr) :
    parseAll (Token.mk .IfNonZero l c :: rest) [] acc = parseAll rest [] acc := rfl

/-- Step equation for an `IfNonZero` token inside a loop: close the body. -/
theorem parseAll_ifNonZero_frame (l c : Nat) (rest : List Token) (parent : List Expr)
    (stack2 : List (List Expr)) (acc : List Expr) :
    parseAll (Token.mk .IfNonZero l c :: rest) (parent :: stack2) acc
      = parseAll rest stack2 (closeLoop parent acc) := rfl

/-- `parseValDec` can only fail with `ValZeroDec` carrying the offending
token (the trailing-`Set`-already-0 case). -/
theorem parseValDec_error (exprs : List Expr) (t : Token) (e : BrainfartError)
    (h : parseValDec exprs t = .error e) : e = .ValZeroDec t := by
  rcases exprs with _ | ⟨⟨ty, tks⟩, rest⟩
  · simp [parseValDec, pushNewExpr] at h
  · cases ty
    case Add n =>
      simp only [parseValDec, Expr.ty] at h
      split at h <;> simp at h
    case Set n =>
      simp only [parseValDec, Expr.ty] at h
      split at h
      · simp at h
        exact h.symm
      · simp at h
    case MoveRight n => simp [parseValDec, Expr.ty, pushNewExpr] at h
    case MoveLeft n => simp [parseValDec, Expr.ty, pushNewExpr] at h
    case Sub n => simp [parseValDec, Expr.ty, pushNewExpr] at h
    case Output n => simp [parseValDec, Expr.ty, pushNewExpr] at h
    case Input n => simp [parseValDec, Expr.ty, pushNewExpr] at h
    case LoopBlock body => simp [parseValDec, Expr.ty, pushNewExpr] at h

/-- Any error `parseAll` returns, from any accumulator and frame stack, is a
`ValZeroDec`. -/
theorem parseAll_error (ts : List Token) :
    ∀ (stack : List (List Expr)) (acc : List Expr) (e : BrainfartError),
      parseAll ts stack acc = .error e → ∃ t, e = .ValZeroDec t := by
  induction ts with
  | nil =>
    intro stack acc e h
    rw [parseAll_nil] at h
    cases h
  | cons t rest ih =>
    intro stack acc e h
    rcases t with ⟨ty, line, col⟩
    cases ty
    case PointInc =>
      rw [parseAll_pointInc] at h
      exact ih _ _ _ h
    case PointDec =>
      rw [parseAll_pointDec] at h
      exact ih _ _ _ h
    case ValInc =>
      rw [parseAll_valInc] at h
      exact ih _ _ _ h
    case ValDec =>
      rw [parseAll_valDec] at h
      cases hpd : parseValDec acc (Token.mk .ValDec line col) with
      | ok acc2 =>
        rw [hpd] at h
        exact ih _ _ _ h
      | error e2 =>
        rw [hpd] at h
        injection h with h2
        exact ⟨Token.mk .ValDec line col, by
          rw [← h2]
          exact parseValDec_error _ _ _ hpd⟩
    case Output =>
      rw [parseAll_output] at h
      exact ih _ _ _ h
    case Input =>
      rw [parseAll_input] at h
      exact ih _ _ _ h
    case IfZero =>
      rw [parseAll_ifZero] at h
      exact ih _ _ _ h
    case IfNonZero =>
      rcases stack with _ | ⟨parent, stack2⟩
      · rw [parseAll_ifNonZero_top] at h
        exact ih _ _ _ h
      · rw [parseAll_ifNonZero_frame] at h
        exact ih _ _ _ h

/-- C10: `parse_tokens` never returns a bracket-structure error on any token
sequence (including bracket-unbalanced ones): it either succeeds or fails with
a `ValZeroDec`; and a `LoopEnd` (`IfNonZero`) token at top level (empty frame
stack) is silently discarded, producing no expression and no failure. -/
theorem C10_parser_never_bracket_errors :
    (∀ ts : List Token,
      (∃ es, parseTokens ts = .ok es) ∨ ∃ t, parseTokens ts = .error (.ValZeroDec t))
    ∧ ∀ (t : Token) (rest : List Token) (acc : List Expr), t.ty = .IfNonZero →
        parseAll (t :: rest) [] acc = parseAll rest [] acc := by
  constructor
  · intro ts
    cases hp : parseTokens ts with
    | ok es => exact .inl ⟨es, rfl⟩
    | error e =>
      obtain ⟨t, ht⟩ := parseAll_error ts [] [] e hp
      exact .inr ⟨t, by rw [ht]⟩
  · intro t rest acc hty
    rcases t with ⟨ty, line, col⟩
    have h2 : ty = .IfNonZero := hty
    subst h2
    rfl

/-- C10 witness: a concrete top-level `IfNonZero` token (line 5, col 7) is
discarded: parsing "]+"-like token sequences drops the close bracket. -/
theorem C10_witness :
    parseAll [Token.mk .IfNonZero 5 7, Token.mk .ValInc 1 1] [] []
      = parseAll [Token.mk .ValInc 1 1] [] [] :=
  C10_parser_never_bracket_errors.2 (Token.mk .IfNonZero 5 7) [Token.mk .ValInc 1 1] [] rfl

/-- The provenance invariant as the code actually maintains it (amended claim
C6): `MoveRight`/`MoveLeft`/`Add`/`Sub`/`Output`/`Input` of count `n` carry
exactly `n` tokens; a `Set` of constant `n` carries at least `n + 1` tokens and
the excess over `n + 1` is even (each constant increment appends one token and
raises `n`, each constant decrement appends one token and lowers `n`, so the
count starts at `n + 1` and each decrement adds 2 to the difference); a loop
node's body satisfies the invariant recursively. -/
inductive GoodExpr : Expr → Prop where
  | moveRight (n : Nat) (tks : List Token) (h : tks.length = n) :
      GoodExpr (Expr.mk (.MoveRight n) tks)
  | moveLeft (n : Nat) (tks : List Token) (h : tks.length = n) :
      GoodExpr (Expr.mk (.MoveLeft n) tks)
  | add (n : Nat) (tks : List Token) (h : tks.length = n) :
      GoodExpr (Expr.mk (.Add n) tks)
  | sub (n : Nat) (tks : List Token) (h : tks.length = n) :
      GoodExpr (Expr.mk (.Sub n) tks)
  | set (n : Nat) (tks : List Token) (h1 : n + 1 ≤ tks.length)
      (h2 : tks.length % 2 = (n + 1) % 2) :
      GoodExpr (Expr.mk (.Set n) tks)
  | output (n : Nat) (tks : List Token) (h : tks.length = n) :
      GoodExpr (Expr.mk (.Output n) tks)
  | input (n : Nat) (tks : List Token) (h : tks.length = n) :
      GoodExpr (Expr.mk (.Input n) tks)
  | loop (body : List Expr) (tks : List Token) (h : ∀ e ∈ body, GoodExpr e) :
      GoodExpr (Expr.mk (.LoopBlock body) tks)

/-- Every expression of a list satisfies the provenance invariant. -/
def GoodList (l : List Expr) : Prop := ∀ e ∈ l, GoodExpr e

/-- Every open loop-body frame satisfies the provenance invariant. -/
def GoodStack (st : List (List Expr)) : Prop := ∀ l ∈ st, GoodList l

/-- Prepending a good expression to a good list. -/
theorem goodList_cons (e : Expr) (l : List Expr) (he : GoodExpr e) (hl : GoodList l) :
    GoodList (e :: l) := by
  intro x hx
  rcases List.mem_cons.mp hx with h | h
  · subst h
    exact he
  · exact hl x h

/-- The head of a good list is good. -/
theorem goodList_head (e : Expr) (l : List Expr) (h : GoodList (e :: l)) : GoodExpr e :=
  h e (List.mem_cons_self e l)

/-- The tail of a good list is good. -/
theorem goodList_tail (e : Expr) (l : List Expr) (h : GoodList (e :: l)) : GoodList l :=
  fun x hx => h x (List.mem_cons_of_mem e hx)

/-- `parsePointInc` preserves the provenance invariant. -/
theorem parsePointInc_good (acc : List Expr) (t : Token) (hg : GoodList acc) :
    GoodList (parsePointInc acc t) := by
  rcases acc with _ | ⟨⟨ty, tks⟩, rest⟩
  · exact goodList_cons _ _ (GoodExpr.moveRight 1 [t] rfl) hg
  · cases ty
    case MoveRight n =>
      have hh := goodList_head _ _ hg
      have hlen : tks.length = n := by
        cases hh
        assumption
      refine goodList_cons _ _ ?_ (goodList_tail _ _ hg)
      exact GoodExpr.moveRight (n + 1) (tks ++ [t]) (by simp [hlen])
    all_goals exact goodList_cons _ _ (GoodExpr.moveRight 1 [t] rfl) hg

/-- `parsePointDec` preserves the provenance invariant. -/
theorem parsePointDec_good (acc : List Expr) (t : Token) (hg : GoodList acc) :
    GoodList (parsePointDec acc t) := by
  rcases acc with _ | ⟨⟨ty, tks⟩, rest⟩
  · exact goodList_cons _ _ (GoodExpr.moveLeft 1 [t] rfl) hg
  · cases ty
    case MoveRight n =>
      have hh := goodList_head _ _ hg
      have hlen : tks.length = n := by
        cases hh
        assumption
      show GoodList (if n = 1 then rest
        else Expr.mk (.MoveRight (n - 1)) tks.dropLast :: rest)
      by_cases hx : n = 1
      · rw [if_pos hx]
        exact goodList_tail _ _ hg
      · rw [if_neg hx]
        refine goodList_cons _ _ ?_ (goodList_tail _ _ hg)
        exact GoodExpr.moveRight (n - 1) tks.dropLast (by simp [hlen])
    case MoveLeft n =>
      have hh := goodList_head _ _ hg
      have hlen : tks.length = n := by
        cases hh
        assumption
      refine goodList_cons _ _ ?_ (goodList_tail _ _ hg)
      exact GoodExpr.moveLeft (n + 1) (tks ++ [t]) (by simp [hlen])
    all_goals exact goodList_cons _ _ (GoodExpr.moveLeft 1 [t] rfl) hg

/-- `parseValInc` preserves the provenance invariant. -/
theorem parseValInc_good (acc : List Expr) (t : Token) (hg : GoodList acc) :
    GoodList (parseValInc acc t) := by
  rcases acc with _ | ⟨⟨ty, tks⟩, rest⟩
  · exact goodList_cons _ _ (GoodExpr.add 1 [t] rfl) hg
  · cases ty
    case Add n =>
      have hh := goodList_head _ _ hg
      have hlen : tks.length = n := by
        cases hh
        assumption
      refine goodList_cons _ _ ?_ (goodList_tail _ _ hg)
      exact GoodExpr.add (n + 1) (tks ++ [t]) (by simp [hlen])
    case Set n =>
      have hh := goodList_head _ _ hg
      have h12 : n + 1 ≤ tks.length ∧ tks.length % 2 = (n + 1) % 2 := by
        cases hh
        constructor <;> assumption
      refine goodList_cons _ _ ?_ (goodList_tail _ _ hg)
      refine GoodExpr.set (n + 1) (tks ++ [t]) ?_ ?_
      · simp only [List.length_append, List.length_cons, List.length_nil]
        omega
      · simp only [List.length_append, List.length_cons, List.length_nil]
        omega
    all_goals exact goodList_cons _ _ (GoodExpr.add 1 [t] rfl) hg

/-- `parseValDec` preserves the provenance invariant on success. -/
theorem parseValDec_good (acc : List Expr) (t : Token) (acc2 : List Expr)
    (hg : GoodList acc) (h : parseValDec acc t = .ok acc2) : GoodList acc2 := by
  rcases acc with _ | ⟨⟨ty, tks⟩, rest⟩
  · injection h with h
    subst h
    exact goodList_cons _ _ (GoodExpr.sub 1 [t] rfl) hg
  · cases ty
    case Add n =>
      have hlen : tks.length = n := by
        cases goodList_head _ _ hg
        assumption
      rw [show parseValDec (Expr.mk (.Add n) tks :: rest) t
          = (if n = 1 then .ok rest
             else .ok (Expr.mk (.Add (n - 1)) tks.dropLast :: rest)) from rfl] at h
      by_cases hx : n = 1
      · rw [if_pos hx] at h
        injection h with h
        subst h
        exact goodList_tail _ _ hg
      · rw [if_neg hx] at h
        injection h with h
        subst h
        refine goodList_cons _ _ ?_ (goodList_tail _ _ hg)
        exact GoodExpr.add (n - 1) tks.dropLast (by simp [hlen])
    case Sub n =>
      have hlen : tks.length = n := by
        cases goodList_head _ _ hg
        assumption
      injection h with h
      subst h
      refine goodList_cons _ _ ?_ (goodList_tail _ _ hg)
      exact GoodExpr.sub (n + 1) (tks ++ [t]) (by simp [hlen])
    case Set n =>
      have h12 : n + 1 ≤ tks.length ∧ tks.length % 2 = (n + 1) % 2 := by
        cases goodList_head _ _ hg
        constructor <;> assumption
      rw [show parseValDec (Expr.mk (.Set n) tks :: rest) t
          = (if n = 0 then .error (.ValZeroDec t)
             else .ok (Expr.mk (.Set (n - 1)) (tks ++ [t]) :: rest)) from rfl] at h
      by_cases hx : n = 0
      · rw [if_pos hx] at h
        cases h
      · rw [if_neg hx] at h
        injection h with h
        subst h
        refine goodList_cons _ _ ?_ (goodList_tail _ _ hg)
        refine GoodExpr.set (n - 1) (tks ++ [t]) ?_ ?_
        · simp only [List.length_append, List.length_cons, List.length_nil]
          omega
        · simp only [List.length_append, List.length_cons, List.length_nil]
          omega
    case MoveRight n =>
      injection h with h
      subst h
      exact goodList_cons _ _ (GoodExpr.sub 1 [t] rfl) hg
    case MoveLeft n =>
      injection h with h
      subst h
      exact goodList_cons _ _ (GoodExpr.sub 1 [t] rfl) hg
    case Output n =>
      injection h with h
      subst h
      exact goodList_cons _ _ (GoodExpr.sub 1 [t] rfl) hg
    case Input n =>
      injection h with h
      subst h
      exact goodList_cons _ _ (GoodExpr.sub 1 [t] rfl) hg
    case LoopBlock body =>
      injection h with h
      subst h
      exact goodList_cons _ _ (GoodExpr.sub 1 [t] rfl) hg

/-- `parseOutput` preserves the provenance invariant. -/
theorem parseOutput_good (acc : List Expr) (t : Token) (hg : GoodList acc) :
    GoodList (parseOutput acc t) := by
  rcases acc with _ | ⟨⟨ty, tks⟩, rest⟩
  · exact goodList_cons _ _ (GoodExpr.output 1 [t] rfl) hg
  · cases ty
    case Output n =>
      have hlen : tks.length = n := by
        cases goodList_head _ _ hg
        assumption
      refine goodList_cons _ _ ?_ (goodList_tail _ _ hg)
      exact GoodExpr.output (n + 1) (tks ++ [t]) (by simp [hlen])
    all_goals exact goodList_cons _ _ (GoodExpr.output 1 [t] rfl) hg

/-- `parseInput` preserves the provenance invariant. -/
theorem parseInput_good (acc : List Expr) (t : Token) (hg : GoodList acc) :
    GoodList (parseInput acc t) := by
  rcases acc with _ | ⟨⟨ty, tks⟩, rest⟩
  · exact goodList_cons _ _ (GoodExpr.input 1 [t] rfl) hg
  · cases ty
    case Input n =>
      have hlen : tks.length = n := by
        cases goodList_head _ _ hg
        assumption
      refine goodList_cons _ _ ?_ (goodList_tail _ _ hg)
      exact GoodExpr.input (n + 1) (tks ++ [t]) (by simp [hlen])
    all_goals exact goodList_cons _ _ (GoodExpr.input 1 [t] rfl) hg

/-- `closeLoop` preserves the provenance invariant. -/
theorem closeLoop_good (parent lb : List Expr) (hp : GoodList parent) (hb : GoodList lb) :
    GoodList (closeLoop parent lb) := by
  have hloop : GoodList (Expr.mk (.LoopBlock lb.reverse) [] :: parent) :=
    goodList_cons _ _
      (GoodExpr.loop _ _ (fun e he => hb e (List.mem_reverse.mp he))) hp
  rcases lb with _ | ⟨⟨ty, tks⟩, rest⟩
  · exact hloop
  · rcases rest with _ | ⟨e2, rest2⟩
    · cases ty
      case Sub n =>
        match n with
        | 0 => exact hloop
        | 1 =>
          refine goodList_cons _ _ ?_ hp
          exact GoodExpr.set 0 [tks.headD (Token.mk .ValDec 0 0)] (by simp) rfl
        | m + 2 => exact hloop
      all_goals exact hloop
    · cases ty
      case Sub n =>
        match n with
        | 0 => exact hloop
        | 1 => exact hloop
        | m + 2 => exact hloop
      all_goals exact hloop

/-- `unwindStack` preserves the provenance invariant. -/
theorem unwindStack_good (stack : List (List Expr)) :
    ∀ acc : List Expr, GoodStack stack → GoodList acc →
      GoodList (unwindStack stack acc) := by
  induction stack with
  | nil =>
    intro acc hs ha e he
    exact ha e (List.mem_reverse.mp he)
  | cons parent stack2 ih =>
    intro acc hs ha
    apply ih
    · intro l hl
      exact hs l (List.mem_cons_of_mem _ hl)
    · refine goodList_cons _ _ ?_ (hs parent (List.mem_cons_self _ _))
      exact GoodExpr.loop _ _ (fun e he => ha e (List.mem_reverse.mp he))

/-- Every expression sequence `parseAll` returns satisfies the provenance
invariant, provided the accumulator and all open frames do. -/
theorem parseAll_good (ts : List Token) :
    ∀ (stack : List (List Expr)) (acc : List Expr) (es : List Expr),
      GoodStack stack → GoodList acc → parseAll ts stack acc = .ok es →
      GoodList es := by
  induction ts with
  | nil =>
    intro stack acc es hs ha h
    rw [parseAll_nil] at h
    injection h with h
    subst h
    exact unwindStack_good _ _ hs ha
  | cons t rest ih =>
    intro stack acc es hs ha h
    rcases t with ⟨ty, line, col⟩
    cases ty
    case PointInc =>
      rw [parseAll_pointInc] at h
      exact ih _ _ _ hs (parsePointInc_good _ _ ha) h
    case PointDec =>
      rw [parseAll_pointDec] at h
      exact ih _ _ _ hs (parsePointDec_good _ _ ha) h
    case ValInc =>
      rw [parseAll_valInc] at h
      exact ih _ _ _ hs (parseValInc_good _ _ ha) h
    case ValDec =>
      rw [parseAll_valDec] at h
      cases hpd : parseValDec acc (Token.mk .ValDec line col) with
      | ok acc2 =>
        rw [hpd] at h
        exact ih _ _ _ hs (parseValDec_good _ _ _ ha hpd) h
      | error e2 =>
        rw [hpd] at h
        cases h
    case Output =>
      rw [parseAll_output] at h
      exact ih _ _ _ hs (parseOutput_good _ _ ha) h
    case Input =>
      rw [parseAll_input] at h
      exact ih _ _ _ hs (parseInput_good _ _ ha) h
    case IfZero =>
      rw [parseAll_ifZero] at h
      refine ih _ _ _ ?_ ?_ h
      · intro l hl
        rcases List.mem_cons.mp hl with h2 | h2
        · subst h2
          exact ha
        · exact hs l h2
      · intro e he
        cases he
    case IfNonZero =>
      rcases stack with _ | ⟨parent, stack2⟩
      · rw [parseAll_ifNonZero_top] at h
        exact ih _ _ _ hs ha h
      · rw [parseAll_ifNonZero_frame] at h
        refine ih _ _ _ (fun l hl => hs l (List.mem_cons_of_mem _ hl)) ?_ h
        exact closeLoop_good _ _ (hs parent (List.mem_cons_self _ _)) ha

/-- C6 counterexample: the claim says a `Set` of constant `n` carries exactly
`n + 1` tokens after every parser step including decrements, but a constant
decrement on a trailing `Set` *appends* the decrement's token
(`parse_val_dec`, the `Set` arm pushes): "[-]+-" parses to a `Set 0` carrying
3 tokens, not 0 + 1 = 1. -/
theorem C6_counterexample :
    parseSource "[-]+-" = .ok [Expr.mk (.Set 0)
      [Token.mk .ValDec 1 2, Token.mk .ValInc 1 4, Token.mk .ValDec 1 5]]
    ∧ (Expr.mk (.Set 0)
      [Token.mk .ValDec 1 2, Token.mk .ValInc 1 4, Token.mk .ValDec 1 5]).tokens.length
      ≠ 0 + 1 :=
  ⟨rfl, by decide⟩

/-- C6 amended: every expression the parser produces (at any nesting depth)
satisfies the invariant the code actually maintains: run kinds carry exactly
`n` tokens; a `Set` of constant `n` carries `n + 1` tokens plus one extra
token for every constant-decrement unit folded into it (so at least `n + 1`,
with even excess), since both constant increments and decrements applied to a
trailing `Set` append their token. -/
theorem C6_amended (ts : List Token) (es : List Expr) (h : parseTokens ts = .ok es) :
    ∀ e ∈ es, GoodExpr e :=
  parseAll_good ts [] [] es (fun l hl => absurd hl (List.not_mem_nil l))
    (fun e he => absurd he (List.not_mem_nil e)) h

/-- C6 witness: the amended invariant instantiated on the parse of "[-]+-":
its single `Set 0` carries 3 tokens (1 + 2 for the one decrement). -/
theorem C6_witness :
    GoodExpr (Expr.mk (.Set 0)
      [Token.mk .ValDec 1 2, Token.mk .ValInc 1 4, Token.mk .ValDec 1 5]) :=
  C6_amended [Token.mk .IfZero 1 1, Token.mk .ValDec 1 2, Token.mk .IfNonZero 1 3,
      Token.mk .ValInc 1 4, Token.mk .ValDec 1 5]
    [Expr.mk (.Set 0) [Token.mk .ValDec 1 2, Token.mk .ValInc 1 4, Token.mk .ValDec 1 5]]
    rfl _ (List.mem_singleton.mpr rfl)

/-- Unfolding equation for `lexAux` on a non-empty character list. -/
theorem lexAux_cons (line col bal : Nat) (c : Char) (cs : List Char) :
    lexAux line col bal (c :: cs)
      = match lexChar c with
        | some tt =>
          match tt with
          | .IfZero =>
            (lexAux line (col + 1) (bal + 1) cs).map (fun ts => Token.mk tt line col :: ts)
          | .IfNonZero =>
            if bal = 0 then .error (.UnmatchedCloseBracket (Token.mk tt line col))
            else (lexAux line (col + 1) (bal - 1) cs).map (fun ts => Token.mk tt line col :: ts)
          | _ =>
            (lexAux line (col + 1) bal cs).map (fun ts => Token.mk tt line col :: ts)
        | none =>
          if c = '\n' ∨ c = '\r' then lexAux (line + 1) 1 bal cs
          else lexAux line (col + 1) bal cs := rfl

/-- Mapping the success value of an `Except` does not change which error it is. -/
theorem except_map_error_iff {α β : Type} (k : Except BrainfartError α) (f : α → β)
    (e : BrainfartError) : k.map f = .error e ↔ k = .error e := by
  cases k <;> simp [Except.map]

/-- Stated from the claim's words (spec §4.1): scanning a command sequence
with the nesting counter at `bal`, some `LoopEnd` is reached while the counter
is 0.  Positions are irrelevant to this condition, so it is phrased on the
bare command kinds (the `filterMap lexChar` projection of the source). -/
def hasEarlyClose (bal : Nat) : List TokenType → Bool
  | [] => false
  | t :: ts =>
    match t with
    | .IfZero => hasEarlyClose (bal + 1) ts
    | .IfNonZero => bal == 0 || hasEarlyClose (bal - 1) ts
    | _ => hasEarlyClose bal ts

/-- Stated from the claim's words (spec §4.1): the value of the nesting
counter after scanning the whole command sequence (when no early close
aborted the scan). -/
def finalBal (bal : Nat) : List TokenType → Nat
  | [] => bal
  | t :: ts =>
    match t with
    | .IfZero => finalBal (bal + 1) ts
    | .IfNonZero => finalBal (bal - 1) ts
    | _ => finalBal bal ts

/-- The lexer's bracket-error behavior, characterized on the command
projection of the input: an `UnmatchedCloseBracket` error occurs exactly when
some close bracket is scanned at counter 0 (and its token is a `LoopEnd`);
an `UnmatchedOpenBracket` error occurs exactly when no such early close
exists and the final counter is nonzero. -/
theorem lexAux_bracket_chars (cs : List Char) :
    ∀ line col bal : Nat,
      ((∃ t, lexAux line col bal cs = .error (.UnmatchedCloseBracket t))
        ↔ hasEarlyClose bal (cs.filterMap lexChar) = true)
      ∧ (∀ t, lexAux line col bal cs = .error (.UnmatchedCloseBracket t) →
          t.ty = .IfNonZero)
      ∧ (lexAux line col bal cs = .error .UnmatchedOpenBracket
        ↔ hasEarlyClose bal (cs.filterMap lexChar) = false
          ∧ finalBal bal (cs.filterMap lexChar) ≠ 0) := by
  induction cs with
  | nil =>
    intro line col bal
    by_cases hb : bal = 0
    · rw [show lexAux line col bal [] = .ok [] from by simp [lexAux, hb]]
      refine ⟨?_, ?_, ?_⟩ <;> simp [hasEarlyClose, finalBal, hb]
    · rw [show lexAux line col bal [] = .error .UnmatchedOpenBracket from by
        simp [lexAux, hb]]
      refine ⟨?_, ?_, ?_⟩ <;> simp [hasEarlyClose, finalBal, hb]
  | cons c cs ih =>
    intro line col bal
    cases hc : lexChar c with
    | none =>
      have hcm : (c :: cs).filterMap lexChar = cs.filterMap lexChar := by
        rw [List.filterMap_cons, hc]
      rw [lexAux_cons, hc, hcm]
      dsimp only
      by_cases hnl : c = '\n' ∨ c = '\r'
      · rw [if_pos hnl]
        exact ih (line + 1) 1 bal
      · rw [if_neg hnl]
        exact ih line (col + 1) bal
    | some tt =>
      have hcm : (c :: cs).filterMap lexChar = tt :: cs.filterMap lexChar := by
        rw [List.filterMap_cons, hc]
      rw [lexAux_cons, hc, hcm]
      cases tt
      case IfZero =>
        refine ⟨?_, ?_, ?_⟩
        · exact Iff.trans (exists_congr fun t => except_map_error_iff _ _ _)
            ((ih line (col + 1) (bal + 1)).1)
        · intro t ht
          exact (ih line (col + 1) (bal + 1)).2.1 t ((except_map_error_iff _ _ _).mp ht)
        · exact Iff.trans (except_map_error_iff _ _ _) ((ih line (col + 1) (bal + 1)).2.2)
      case IfNonZero =>
        dsimp only
        by_cases hb : bal = 0
        · rw [if_pos hb]
          refine ⟨?_, ?_, ?_⟩
          · constructor
            · intro _
              simp [hasEarlyClose, hb]
            · intro _
              exact ⟨Token.mk .IfNonZero line col, rfl⟩
          · intro t ht
            injection ht with h2
            injection h2 with h3
            rw [← h3]
          · constructor
            · intro ht
              exact absurd ht (by simp)
            · rintro ⟨h1, h2⟩
              simp [hasEarlyClose, hb] at h1
        · rw [if_neg hb]
          have hred : hasEarlyClose bal (.IfNonZero :: cs.filterMap lexChar)
              = hasEarlyClose (bal - 1) (cs.filterMap lexChar) := by
            simp [hasEarlyClose, hb]
          have fred : finalBal bal (.IfNonZero :: cs.filterMap lexChar)
              = finalBal (bal - 1) (cs.filterMap lexChar) := rfl
          refine ⟨?_, ?_, ?_⟩
          · rw [hred]
            exact Iff.trans (exists_congr fun t => except_map_error_iff _ _ _)
              ((ih line (col + 1) (bal - 1)).1)
          · intro t ht
            exact (ih line (col + 1) (bal - 1)).2.1 t ((except_map_error_iff _ _ _).mp ht)
          · rw [hred, fred]
            exact Iff.trans (except_map_error_iff _ _ _) ((ih line (col + 1) (bal - 1)).2.2)
      case PointInc =>
        refine ⟨?_, ?_, ?_⟩
        · exact Iff.trans (exists_congr fun t => except_map_error_iff _ _ _)
            ((ih line (col + 1) bal).1)
        · intro t ht
          exact (ih line (col + 1) bal).2.1 t ((except_map_error_iff _ _ _).mp ht)
        · exact Iff.trans (except_map_error_iff _ _ _) ((ih line (col + 1) bal).2.2)
      case PointDec =>
        refine ⟨?_, ?_, ?_⟩
        · exact Iff.trans (exists_congr fun t => except_map_error_iff _ _ _)
            ((ih line (col + 1) bal).1)
        · intro t ht
          exact (ih line (col + 1) bal).2.1 t ((except_map_error_iff _ _ _).mp ht)
        · exact Iff.trans (except_map_error_iff _ _ _) ((ih line (col + 1) bal).2.2)
      case ValInc =>
        refine ⟨?_, ?_, ?_⟩
        · exact Iff.trans (exists_congr fun t => except_map_error_iff _ _ _)
            ((ih line (col + 1) bal).1)
        · intro t ht
          exact (ih line (col + 1) bal).2.1 t ((except_map_error_iff _ _ _).mp ht)
        · exact Iff.trans (except_map_error_iff _ _ _) ((ih line (col + 1) bal).2.2)
      case ValDec =>
        refine ⟨?_, ?_, ?_⟩
        · exact Iff.trans (exists_congr fun t => except_map_error_iff _ _ _)
            ((ih line (col + 1) bal).1)
        · intro t ht
          exact (ih line (col + 1) bal).2.1 t ((except_map_error_iff _ _ _).mp ht)
        · exact Iff.trans (except_map_error_iff _ _ _) ((ih line (col + 1) bal).2.2)
      case Output =>
        refine ⟨?_, ?_, ?_⟩
        · exact Iff.trans (exists_congr fun t => except_map_error_iff _ _ _)
            ((ih line (col + 1) bal).1)
        · intro t ht
          exact (ih line (col + 1) bal).2.1 t ((except_map_error_iff _ _ _).mp ht)
        · exact Iff.trans (except_map_error_iff _ _ _) ((ih line (col + 1) bal).2.2)
      case Input =>
        refine ⟨?_, ?_, ?_⟩
        · exact Iff.trans (exists_congr fun t => except_map_error_iff _ _ _)
            ((ih line (col + 1) bal).1)
        · intro t ht
          exact (ih line (col + 1) bal).2.1 t ((except_map_error_iff _ _ _).mp ht)
        · exact Iff.trans (except_map_error_iff _ _ _) ((ih line (col + 1) bal).2.2)

/-- C9: the lexer fails with `UnmatchedCloseBracket` (bound to a `LoopEnd`
token) exactly when a close bracket is scanned while the nesting counter is
0, aborting the scan; after a complete scan it fails with
`UnmatchedOpenBracket` (no token) exactly when the counter is nonzero.
Concretely, "]" alone fails with `UnmatchedCloseBracket` at line 1, col 1,
and "[" alone fails with `UnmatchedOpenBracket`. -/
theorem C9_lexer_bracket_errors :
    lexString "]" = .error (.UnmatchedCloseBracket (Token.mk .IfNonZero 1 1))
    ∧ lexString "[" = .error .UnmatchedOpenBracket
    ∧ ∀ s : String,
        ((∃ t, lexString s = .error (.UnmatchedCloseBracket t))
          ↔ hasEarlyClose 0 (s.toList.filterMap lexChar) = true)
        ∧ (∀ t, lexString s = .error (.UnmatchedCloseBracket t) → t.ty = .IfNonZero)
        ∧ (lexString s = .error .UnmatchedOpenBracket
          ↔ hasEarlyClose 0 (s.toList.filterMap lexChar) = false
            ∧ finalBal 0 (s.toList.filterMap lexChar) ≠ 0) :=
  ⟨rfl, rfl, fun s => lexAux_bracket_chars s.toList 1 1 0⟩

/-- C9 witness: instantiating the characterization at "]" — its error token
is a `LoopEnd`, and the early-close condition holds for its command sequence. -/
theorem C9_witness :
    (Token.mk .IfNonZero 1 1).ty = .IfNonZero
    ∧ hasEarlyClose 0 ((("]" : String)).toList.filterMap lexChar) = true :=
  ⟨(C9_lexer_bracket_errors.2.2 "]").2.1 (Token.mk .IfNonZero 1 1) rfl,
   ((C9_lexer_bracket_errors.2.2 "]").1).mp ⟨Token.mk .IfNonZero 1 1, rfl⟩⟩
